import Mathlib

/-!
Shallow embedding of the collection manager
(`collection_manager/manager.py`): a bounded collection of text
documents stored one file per document in a directory, with a persistent
JSON metadata index.  Documents are modelled as lists of characters,
the directory as a name-sorted association list, and the in-memory and
persisted index as association lists of `FileMeta`.  Timestamps are
abstract naturals (the code stores ISO strings whose order mirrors
numeric time).  Each operation mirrors the Python control flow,
returning the raised error (as an `Err`) together with the state at the
point of the raise.
-/

namespace CollectionManager

/-- Error kinds raised by the manager, as classified by the spec:
`invalidName` for `ValueError` from filename sanitization,
`collectionFull` for the MAX_FILES `RuntimeError`, `alreadyExists` for
`FileExistsError`, `notFound` for `FileNotFoundError`, `invalidArgument`
for `ValueError` on a non-positive line index, `outOfRange` for
`IndexError`. -/
inductive Err where
  | invalidName
  | collectionFull
  | alreadyExists
  | notFound
  | invalidArgument
  | outOfRange
deriving DecidableEq, Repr

instance {ε α : Type} [DecidableEq ε] [DecidableEq α] :
    DecidableEq (Except ε α) := fun x y =>
  match x, y with
  | Except.error a, Except.error b =>
    if h : a = b then isTrue (congrArg Except.error h)
    else isFalse (fun hh => h (Except.error.inj hh))
  | Except.error _, Except.ok _ => isFalse (fun hh => Except.noConfusion hh)
  | Except.ok _, Except.error _ => isFalse (fun hh => Except.noConfusion hh)
  | Except.ok a, Except.ok b =>
    if h : a = b then isTrue (congrArg Except.ok h)
    else isFalse (fun hh => h (Except.ok.inj hh))

/-- Content of one document file: its characters in order. -/
abbrev Content := List Char

/-- Python `s.rstrip("\n")`: remove every trailing newline character. -/
def rstripNL (l : Content) : Content :=
  (l.reverse.dropWhile (fun c => c = '\n')).reverse

/-- Python file iteration / `readlines`: split the content into lines,
each line keeping its terminating newline; a final segment without a
terminator is kept as a last line. -/
def readlines : Content → List Content
  | [] => []
  | c :: rest =>
    if c = '\n' then ['\n'] :: readlines rest
    else
      match readlines rest with
      | [] => [[c]]
      | l :: ls => (c :: l) :: ls

/-- Python `str.lower` restricted to the ASCII range (the repository
only exercises ASCII names and text). -/
def lowerL (l : Content) : Content := l.map Char.toLower

/-- Whether `needle` occurs at the very start of `hay`. -/
def leadsWith : Content → Content → Bool
  | [], _ => true
  | _ :: _, [] => false
  | c :: cs, d :: ds => c = d && leadsWith cs ds

/-- Python `needle in hay` on strings: literal substring occurrence. -/
def hasSub (needle : Content) : Content → Bool
  | [] => needle.isEmpty
  | d :: rest => leadsWith needle (d :: rest) || hasSub needle rest

/-- Python `enumerate(fh, start=k)`: number a list from `k`. -/
def numberFrom : Nat → List α → List (Nat × α)
  | _, [] => []
  | k, x :: xs => (k, x) :: numberFrom (k + 1) xs

/-- Whether a file content is newline-terminated (or empty).  Every
content produced by the manager itself satisfies this: files are
created empty and every appended entry ends in exactly one newline. -/
def endsNL : Content → Bool
  | [] => true
  | [c] => c = '\n'
  | _ :: c :: rest => endsNL (c :: rest)

/-- Reserved filename of the persisted index (`INDEX_FILENAME`). -/
def INDEX_FILENAME : String := "index.json"

/-- Maximum number of documents in the collection (`MAX_FILES`). -/
def MAX_FILES : Nat := 100

/-- Python `os.path.basename` on POSIX: the segment after the last
path separator. -/
def basename (s : String) : String :=
  String.mk ((s.data.reverse.takeWhile (fun c => c ≠ '/')).reverse)

/-- One character of the class `[\w\-. ]` of `FILENAME_RE`, restricted
to ASCII word characters. -/
def allowedChar (c : Char) : Bool :=
  c.isAlphanum || c = '_' || c = '-' || c = '.' || c = ' '

/-- `CollectionManager._sanitize_filename`: take the basename, reject it
if empty or containing a character outside `FILENAME_RE`, reject the
reserved index filename, and otherwise return the basename. -/
def sanitize (name : String) : Except Err String :=
  if (basename name).data.isEmpty || !((basename name).data.all allowedChar) then
    Except.error Err.invalidName
  else if basename name = INDEX_FILENAME then
    Except.error Err.invalidName
  else
    Except.ok (basename name)

/-- Byte-wise (character-wise) strict order on names, matching Python's
string comparison used by `sorted(...)` for ASCII names. -/
def strLtB : List Char → List Char → Bool
  | [], [] => false
  | [], _ :: _ => true
  | _ :: _, [] => false
  | a :: as, b :: bs => a < b || (a = b && strLtB as bs)

/-- Strict ascending order on filenames. -/
def nameLt (a b : String) : Prop := strLtB a.data b.data = true

instance : DecidablePred fun p : String × String => nameLt p.1 p.2 :=
  fun _ => by unfold nameLt; infer_instance

instance (a b : String) : Decidable (nameLt a b) := by
  unfold nameLt; infer_instance

/-- Metadata record for one document (`FileMeta`).  Timestamps are
abstract naturals standing for the ISO-format strings of the code. -/
structure FileMeta where
  filename : String
  created_at : Nat
  last_modified : Nat
  size : Nat
  tags : List String
deriving DecidableEq, Repr

/-- One physical file: its content plus the filesystem's own creation
and modification stamps (`st_ctime` / `st_mtime`). -/
structure DFile where
  content : Content
  ctime : Nat
  mtime : Nat
deriving DecidableEq, Repr

/-- Manager state: the physical document files of the collection
directory as a name-sorted association list (the reserved index file is
held separately), the in-memory index `self._index`, and the content of
the persisted index file. -/
structure St where
  dir : List (String × DFile)
  index : List (String × FileMeta)
  persisted : List (String × FileMeta)
deriving DecidableEq, Repr

/-- Lookup in an association list by name (Python `dict` access /
file-existence test). -/
def assocGet : List (String × β) → String → Option β
  | [], _ => none
  | (m, v) :: rest, n => if n = m then some v else assocGet rest n

/-- Python `dict` update `d[k] = v`: replace in place, or append a new
binding at the end. -/
def assocSet : List (String × β) → String → β → List (String × β)
  | [], n, v => [(n, v)]
  | (m, w) :: rest, n, v =>
    if n = m then (n, v) :: rest else (m, w) :: assocSet rest n v

/-- Python `del d[k]`: drop the binding for `n`. -/
def assocErase : List (String × β) → String → List (String × β)
  | [], _ => []
  | (m, v) :: rest, n =>
    if m = n then assocErase rest n else (m, v) :: assocErase rest n

/-- Creating or overwriting a physical file keeps the directory listing
sorted by name, matching `sorted(self.data_dir.iterdir())`. -/
def dirSet : List (String × DFile) → String → DFile → List (String × DFile)
  | [], n, f => [(n, f)]
  | (m, g) :: rest, n, f =>
    if n = m then (n, f) :: rest
    else if nameLt n m then (n, f) :: (m, g) :: rest
    else (m, g) :: dirSet rest n f

/-- Well-formed directory listing: names strictly ascending (hence
distinct), as `sorted(iterdir())` over a real directory yields. -/
def dirWF (s : St) : Prop :=
  s.dir.Pairwise (fun p q => nameLt p.1 q.1)

instance (s : St) : Decidable (dirWF s) := by
  unfold dirWF; exact List.instDecidablePairwise s.dir

/-- The number of bytes of a file as reported by `stat().st_size`
(one byte per character in the ASCII fragment modelled here). -/
def fileSize (f : DFile) : Nat := f.content.length

/-- `CollectionManager._update_meta_for`: stat the file, update or
create its metadata entry (fresh entries get `created_at` and
`last_modified` now; existing entries keep `created_at`), then persist
the whole index.  All call sites invoke it on a file just written, so
the lookup succeeds; a missing file leaves the state unchanged. -/
def updateMetaFor (s : St) (n : String) (now : Nat) : St :=
  match assocGet s.dir n with
  | none => s
  | some f =>
    let m := match assocGet s.index n with
      | none =>
        { filename := n, created_at := now, last_modified := now
          size := fileSize f, tags := [] }
      | some old => { old with last_modified := now, size := fileSize f }
    let idx := assocSet s.index n m
    { s with index := idx, persisted := idx }

/-- Index entry built by `_rebuild_index` for one on-disk file: the
filesystem's stamps, the on-disk size and an empty tag list. -/
def rebuiltEntry (p : String × DFile) : String × FileMeta :=
  (p.1, { filename := p.1, created_at := p.2.ctime
          last_modified := p.2.mtime, size := fileSize p.2
          tags := ([] : List String) })

/-- `CollectionManager._rebuild_index`: discard the in-memory index and
rebuild it from the directory listing, skipping the reserved index
file.  The result is persisted. -/
def rebuildIndex (s : St) : St :=
  let idx := (s.dir.filter (fun p => p.1 ≠ INDEX_FILENAME)).map rebuiltEntry
  { s with index := idx, persisted := idx }

/-- `CollectionManager.list_files`: rebuild the index from disk, then
return all entries. -/
def listFiles (s : St) : List FileMeta × St :=
  let s1 := rebuildIndex s
  (s1.index.map Prod.snd, s1)

/-- Effect of `path.write_text("")` on the file: an existing file is
truncated (keeping its filesystem creation stamp), a new one is
created. -/
def writtenEmpty : Option DFile → Nat → DFile
  | some old, now => { old with content := [], mtime := now }
  | none, now => { content := [], ctime := now, mtime := now }

/-- Count of the non-reserved files physically present, as computed at
the top of `create_file`. -/
def docCount (s : St) : Nat :=
  (s.dir.filter (fun p => p.1 ≠ INDEX_FILENAME)).length

/-- `CollectionManager.create_file`: count the non-reserved files on
disk and fail `collectionFull` at the cap; sanitize the name; fail
`alreadyExists` when the target exists and overwrite is off; otherwise
write an empty file and update its metadata. -/
def createFile (s : St) (name : String) (overwrite : Bool) (now : Nat) :
    Except Err Unit × St :=
  if MAX_FILES ≤ docCount s then (Except.error Err.collectionFull, s)
  else
    match sanitize name with
    | Except.error e => (Except.error e, s)
    | Except.ok fname =>
      if (assocGet s.dir fname).isSome && !overwrite then
        (Except.error Err.alreadyExists, s)
      else
        let f := writtenEmpty (assocGet s.dir fname) now
        let s1 := { s with dir := dirSet s.dir fname f }
        (Except.ok (), updateMetaFor s1 fname now)

/-- `CollectionManager.show_file`: read the document's lines with their
trailing newlines stripped. -/
def showFile (s : St) (name : String) : Except Err (List Content) × St :=
  match sanitize name with
  | Except.error e => (Except.error e, s)
  | Except.ok fname =>
    match assocGet s.dir fname with
    | none => (Except.error Err.notFound, s)
    | some f => (Except.ok ((readlines f.content).map rstripNL), s)

/-- `CollectionManager.add_lines`: append each given line with its
trailing newlines stripped and exactly one newline added, then update
metadata. -/
def addLines (s : St) (name : String) (lines : List Content) (now : Nat) :
    Except Err Unit × St :=
  match sanitize name with
  | Except.error e => (Except.error e, s)
  | Except.ok fname =>
    match assocGet s.dir fname with
    | none => (Except.error Err.notFound, s)
    | some f =>
      let newContent :=
        f.content ++ lines.flatMap (fun l => rstripNL l ++ ['\n'])
      let s1 :=
        { s with dir := dirSet s.dir fname { f with content := newContent, mtime := now } }
      (Except.ok (), updateMetaFor s1 fname now)

/-- `CollectionManager.remove_file`: sanitize and delete the physical
file, then drop the index entry for the RAW argument `name` (not the
sanitized basename) when present, persisting only in that case. -/
def removeFile (s : St) (name : String) : Except Err Unit × St :=
  match sanitize name with
  | Except.error e => (Except.error e, s)
  | Except.ok fname =>
    match assocGet s.dir fname with
    | none => (Except.error Err.notFound, s)
    | some _ =>
      let s1 := { s with dir := assocErase s.dir fname }
      if (assocGet s1.index name).isSome then
        let idx := assocErase s1.index name
        (Except.ok (), { s1 with index := idx, persisted := idx })
      else
        (Except.ok (), s1)

/-- Content of the document after `remove_line` drops the 1-based line
`k + 1`: the remaining lines written back by `writelines`. -/
def removeLineNewContent (content : Content) (k : Nat) : Content :=
  ((readlines content).eraseIdx k).flatMap id

/-- `CollectionManager.remove_line`: reject a line number below 1, then
sanitize, then require the file, then reject a line number beyond the
line count; otherwise drop the line, rewrite the file in place, update
metadata and return the removed line without its newline. -/
def removeLine (s : St) (name : String) (lineNo : Int) (now : Nat) :
    Except Err Content × St :=
  if lineNo < 1 then (Except.error Err.invalidArgument, s)
  else
    match sanitize name with
    | Except.error e => (Except.error e, s)
    | Except.ok fname =>
      match assocGet s.dir fname with
      | none => (Except.error Err.notFound, s)
      | some f =>
        let lines := readlines f.content
        if (lines.length : Int) < lineNo then (Except.error Err.outOfRange, s)
        else
          let k := lineNo.toNat - 1
          let removed := lines.getD k []
          let newContent := removeLineNewContent f.content k
          let s1 :=
            { s with dir := dirSet s.dir fname { f with content := newContent, mtime := now } }
          (Except.ok (rstripNL removed), updateMetaFor s1 fname now)

/-- `CollectionManager.find_text`: lowercase the needle when ignoring
case, then scan the sorted directory listing, skipping the reserved
index file, and emit one `(filename, lineNumber, strippedLine)` result
per line containing the needle. -/
def findText (s : St) (text : Content) (ignoreCase : Bool) :
    List (String × Nat × Content) :=
  let needle := if ignoreCase then lowerL text else text
  s.dir.flatMap (fun p =>
    if p.1 = INDEX_FILENAME then []
    else
      ((numberFrom 1 (readlines p.2.content)).filter
        (fun q => hasSub needle (if ignoreCase then lowerL q.2 else q.2))).map
        (fun q => (p.1, q.1, rstripNL q.2)))

/-- `CollectionManager.get_meta`: sanitize, then look the name up in
the in-memory index only. -/
def getMeta (s : St) (name : String) : Except Err (Option FileMeta) :=
  match sanitize name with
  | Except.error e => Except.error e
  | Except.ok fname => Except.ok (assocGet s.index fname)

/-- `CollectionManager.add_tag`: fail `notFound` without a metadata
entry; append the tag and persist only when it is not already there. -/
def addTag (s : St) (name tag : String) : Except Err Unit × St :=
  match sanitize name with
  | Except.error e => (Except.error e, s)
  | Except.ok fname =>
    match assocGet s.index fname with
    | none => (Except.error Err.notFound, s)
    | some m =>
      if tag ∈ m.tags then (Except.ok (), s)
      else
        let idx := assocSet s.index fname { m with tags := m.tags ++ [tag] }
        (Except.ok (), { s with index := idx, persisted := idx })

/-- `CollectionManager.remove_tag`: fail `notFound` without a metadata
entry; remove the tag and persist only when it is present. -/
def removeTag (s : St) (name tag : String) : Except Err Unit × St :=
  match sanitize name with
  | Except.error e => (Except.error e, s)
  | Except.ok fname =>
    match assocGet s.index fname with
    | none => (Except.error Err.notFound, s)
    | some m =>
      if tag ∈ m.tags then
        let idx := assocSet s.index fname { m with tags := m.tags.erase tag }
        (Except.ok (), { s with index := idx, persisted := idx })
      else (Except.ok (), s)

/-- One public operation of the manager, for stating properties that
range over every operation. -/
inductive Op where
  | create (name : String) (overwrite : Bool)
  | append (name : String) (lines : List Content)
  | delLine (name : String) (lineNo : Int)
  | delFile (name : String)
  | tagAdd (name tag : String)
  | tagRemove (name tag : String)
  | listOp
deriving DecidableEq, Repr

/-- Run one public operation, discarding its return value. -/
def runOp (s : St) (o : Op) (now : Nat) : Except Err Unit × St :=
  match o with
  | Op.create n ow => createFile s n ow now
  | Op.append n ls => addLines s n ls now
  | Op.delLine n k =>
    let r := removeLine s n k now
    ((r.1.map fun _ => ()), r.2)
  | Op.delFile n => removeFile s n
  | Op.tagAdd n t => addTag s n t
  | Op.tagRemove n t => removeTag s n t
  | Op.listOp => (Except.ok (), (listFiles s).2)

/-- Index-vs-disk invariant of the spec: the index holds exactly one
entry per non-reserved file physically present, and none for absent
files. -/
def indexMatchesDir (s : St) : Prop :=
  (s.index.map Prod.fst).Nodup ∧
  ∀ n, (assocGet s.index n).isSome ↔
    ((assocGet s.dir n).isSome ∧ n ≠ INDEX_FILENAME)

/-- Joining one component onto a directory path, as
`self.data_dir / fname` does in `_file_path`: `pathlib` drops a `.`
component and keeps everything else (including `..`) textually. -/
def pathJoin (dataDir : List String) (component : String) : List String :=
  if component = "." then dataDir else dataDir ++ [component]

/-- POSIX resolution of a path given as components: a `.` component is
skipped and a `..` component removes the previous component. -/
def resolvePath (p : List String) : List String :=
  p.foldl
    (fun acc c =>
      if c = "." then acc
      else if c = ".." then acc.dropLast
      else acc ++ [c]) []

/-- A resolved path lies strictly inside a resolved directory: it is
longer and starts with the directory's components.  A document file of
the collection must satisfy this with respect to the data directory. -/
def strictlyInside (dataDir p : List String) : Prop :=
  dataDir.length < p.length ∧ p.take dataDir.length = dataDir

/-- `_file_path` at the path level: the sanitized name joined onto the
data directory. -/
def filePathOf (dataDir : List String) (name : String) :
    Except Err (List String) :=
  match sanitize name with
  | Except.error e => Except.error e
  | Except.ok fname => Except.ok (pathJoin dataDir fname)

/-- Observable on-disk contents of a file while it is rewritten in
place (`path.open("w")` then `writelines`): the file is truncated first
and then filled sequentially, so a failure can expose every initial
segment of the new content. -/
def overwriteCrashStates (newContent : Content) : List Content :=
  (List.range (newContent.length + 1)).map (fun k => newContent.take k)

/-- Observable contents of the persisted index while `_write_index`
runs: the full serialization is written to a temporary file and then
renamed over the index, so a reader sees the old or the new version
only. -/
def writeIndexCrashStates (old new : List (String × FileMeta)) :
    List (List (String × FileMeta)) := [old, new]

/-- Observable document contents if the in-place rewrite performed by
`remove_line` fails midway: the initial segments of the new content. -/
def removeLineCrashStates (content : Content) (k : Nat) : List Content :=
  overwriteCrashStates (removeLineNewContent content k)

/-! ### Example states used by witnesses and counterexamples -/

/-- Metadata of a tracked example file carrying a tag. -/
def mA : FileMeta :=
  { filename := "a.txt", created_at := 1, last_modified := 2, size := 2
    tags := ["x"] }

/-- Example state: one tracked file `a.txt` with content `"x\n"`,
filesystem stamps 5/6, and an index entry carrying tag `"x"`. -/
def sA : St :=
  { dir := [("a.txt", { content := ['x', '\n'], ctime := 5, mtime := 6 })]
    index := [("a.txt", mA)]
    persisted := [("a.txt", mA)] }

/-- Example state whose directory holds 100 documents. -/
def sFull : St :=
  { dir := List.replicate 100 ("a", { content := [], ctime := 0, mtime := 0 })
    index := []
    persisted := [] }

/-- Example state: one file `b.txt` containing the line
`"error occurred\n"`, used to exercise the search. -/
def sB : St :=
  { dir := [("b.txt",
      { content := "error occurred\n".data, ctime := 0, mtime := 0 })]
    index := []
    persisted := [] }

/-- Per-file part of `find_text` in the case-insensitive case: skip the
reserved index file, number the lines from 1, keep the lines whose
lowercased text contains the needle, and emit
`(filename, lineNumber, strippedLine)`. -/
def findInFile (needle : Content) (p : String × DFile) :
    List (String × Nat × Content) :=
  if p.1 = INDEX_FILENAME then []
  else
    ((numberFrom 1 (readlines p.2.content)).filter
      (fun q => hasSub needle (lowerL q.2))).map
      (fun q => (p.1, q.1, rstripNL q.2))

/-- Order of the result sequence of `find_text`: ascending filename,
then ascending line number within a file. -/
def resLt (a b : String × Nat × Content) : Prop :=
  nameLt a.1 b.1 ∨ (a.1 = b.1 ∧ a.2.1 < b.2.1)

/-! ### Association list lemmas -/

theorem assocGet_assocSet (l : List (String × β)) (n : String) (v : β)
    (m : String) :
    assocGet (assocSet l n v) m = if m = n then some v else assocGet l m := by
  induction l with
  | nil => simp [assocSet, assocGet]
  | cons p rest ih =>
    obtain ⟨q, w⟩ := p
    by_cases hnq : n = q
    · subst hnq
      simp only [assocSet, if_pos rfl]
      by_cases hmq : m = n
      · simp [assocGet, hmq]
      · simp [assocGet, hmq]
    · simp only [assocSet, if_neg hnq]
      by_cases hmq : m = q
      · subst hmq
        have hmn : m ≠ n := fun h => hnq h.symm
        simp [assocGet, hmn]
      · simp [assocGet, hmq, ih]

theorem assocGet_assocErase (l : List (String × β)) (n m : String) :
    assocGet (assocErase l n) m = if m = n then none else assocGet l m := by
  induction l with
  | nil => simp [assocErase, assocGet]
  | cons p rest ih =>
    obtain ⟨q, w⟩ := p
    by_cases hqn : q = n
    · subst hqn
      by_cases hmq : m = q
      · subst hmq
        simp [assocErase, ih]
      · simp [assocErase, assocGet, hmq, ih]
    · by_cases hmq : m = q
      · subst hmq
        have hmn : m ≠ n := hqn
        simp [assocErase, assocGet, hqn, hmn]
      · simp [assocErase, assocGet, hqn, hmq, ih]

theorem assocSet_keys_mem (l : List (String × β)) (n : String) (v : β)
    (x : String) (hx : x ∈ (assocSet l n v).map Prod.fst) :
    x ∈ l.map Prod.fst ∨ x = n := by
  induction l with
  | nil => exact Or.inr (by simpa [assocSet] using hx)
  | cons p rest ih =>
    obtain ⟨q, w⟩ := p
    by_cases hnq : n = q
    · subst hnq
      have hred : assocSet ((n, w) :: rest) n v = (n, v) :: rest := by
        simp [assocSet]
      rw [hred, List.map_cons, List.mem_cons] at hx
      rcases hx with h1 | h1
      · exact Or.inr h1
      · exact Or.inl (List.mem_cons_of_mem n h1)
    · have hred : assocSet ((q, w) :: rest) n v = (q, w) :: assocSet rest n v := by
        simp [assocSet, hnq]
      rw [hred, List.map_cons, List.mem_cons] at hx
      rcases hx with h1 | h1
      · exact Or.inl (by simp [h1])
      · rcases ih h1 with h2 | h2
        · exact Or.inl (List.mem_cons_of_mem q h2)
        · exact Or.inr h2

theorem assocSet_keys_nodup (l : List (String × β)) (n : String) (v : β)
    (h : (l.map Prod.fst).Nodup) :
    ((assocSet l n v).map Prod.fst).Nodup := by
  induction l with
  | nil => simp [assocSet]
  | cons p rest ih =>
    obtain ⟨q, w⟩ := p
    simp only [List.map_cons, List.nodup_cons] at h
    by_cases hnq : n = q
    · subst hnq
      have hred : assocSet ((n, w) :: rest) n v = (n, v) :: rest := by
        simp [assocSet]
      rw [hred, List.map_cons, List.nodup_cons]
      exact ⟨h.1, h.2⟩
    · have hred : assocSet ((q, w) :: rest) n v = (q, w) :: assocSet rest n v := by
        simp [assocSet, hnq]
      rw [hred, List.map_cons, List.nodup_cons]
      refine ⟨fun hq => ?_, ih h.2⟩
      rcases assocSet_keys_mem rest n v q hq with h2 | h2
      · exact h.1 h2
      · exact hnq h2.symm

theorem assocErase_sublist (l : List (String × β)) (n : String) :
    (assocErase l n).Sublist l := by
  induction l with
  | nil => simp [assocErase]
  | cons p rest ih =>
    obtain ⟨q, w⟩ := p
    by_cases hqn : q = n
    · simpa [assocErase, hqn] using ih.cons (q, w)
    · simpa [assocErase, hqn] using ih.cons₂ (q, w)

theorem assocErase_keys_nodup (l : List (String × β)) (n : String)
    (h : (l.map Prod.fst).Nodup) :
    ((assocErase l n).map Prod.fst).Nodup :=
  ((assocErase_sublist l n).map Prod.fst).nodup h

/-! ### Name order lemmas -/

theorem strLtB_irrefl (l : List Char) : strLtB l l = false := by
  induction l with
  | nil => rfl
  | cons c cs ih => simp [strLtB, ih]

theorem strLtB_trans {a b c : List Char} (h1 : strLtB a b = true)
    (h2 : strLtB b c = true) : strLtB a c = true := by
  induction a generalizing b c with
  | nil =>
    cases b with
    | nil => simp [strLtB] at h1
    | cons y ys =>
      cases c with
      | nil => simp [strLtB] at h2
      | cons z zs => simp [strLtB]
  | cons x xs ih =>
    cases b with
    | nil => simp [strLtB] at h1
    | cons y ys =>
      cases c with
      | nil => simp [strLtB] at h2
      | cons z zs =>
        simp only [strLtB, Bool.or_eq_true, Bool.and_eq_true,
          decide_eq_true_eq] at h1 h2 ⊢
        rcases h1 with h1 | ⟨rfl, h1⟩
        · rcases h2 with h2 | ⟨rfl, h2⟩
          · exact Or.inl (lt_trans h1 h2)
          · exact Or.inl h1
        · rcases h2 with h2 | ⟨rfl, h2⟩
          · exact Or.inl h2
          · exact Or.inr ⟨rfl, ih h1 h2⟩

theorem strLtB_of_ne {a b : List Char} (hne : a ≠ b)
    (hab : strLtB a b = false) : strLtB b a = true := by
  induction a generalizing b with
  | nil =>
    cases b with
    | nil => exact absurd rfl hne
    | cons y ys => simp [strLtB] at hab
  | cons x xs ih =>
    cases b with
    | nil => simp [strLtB]
    | cons y ys =>
      simp only [strLtB, Bool.or_eq_false_iff, Bool.and_eq_false_iff,
        Bool.or_eq_true, Bool.and_eq_true, decide_eq_true_eq,
        decide_eq_false_iff_not] at hab ⊢
      by_cases hxy : x = y
      · subst hxy
        rcases hab with ⟨-, h2⟩
        rcases h2 with h2 | h2
        · exact absurd rfl h2
        · have hne2 : xs ≠ ys := fun h => hne (by rw [h])
          exact Or.inr ⟨rfl, ih hne2 h2⟩
      · rcases hab with ⟨h1, -⟩
        rcases lt_trichotomy x y with h | h | h
        · exact absurd h h1
        · exact absurd h hxy
        · exact Or.inl h

theorem nameLt_irrefl (a : String) : ¬ nameLt a a := by
  simp [nameLt, strLtB_irrefl]

theorem nameLt_ne {a b : String} (h : nameLt a b) : a ≠ b := by
  intro hab
  subst hab
  exact nameLt_irrefl a h

theorem nameLt_trans {a b c : String} (h1 : nameLt a b) (h2 : nameLt b c) :
    nameLt a c := strLtB_trans h1 h2

theorem nameLt_of_ne {a b : String} (hne : a ≠ b) (h : ¬ nameLt a b) :
    nameLt b a := by
  have hdata : a.data ≠ b.data := fun hd => hne (String.ext hd)
  exact strLtB_of_ne hdata (by simpa [nameLt] using h)

/-! ### Directory listing lemmas -/

theorem assocGet_dirSet (d : List (String × DFile)) (n : String) (f : DFile)
    (m : String) :
    assocGet (dirSet d n f) m = if m = n then some f else assocGet d m := by
  induction d with
  | nil => simp [dirSet, assocGet]
  | cons p rest ih =>
    obtain ⟨q, g⟩ := p
    by_cases hnq : n = q
    · subst hnq
      have hred : dirSet ((n, g) :: rest) n f = (n, f) :: rest := by
        simp [dirSet]
      rw [hred]
      by_cases hmn : m = n
      · simp [assocGet, hmn]
      · simp [assocGet, hmn]
    · by_cases hlt : nameLt n q
      · have hred : dirSet ((q, g) :: rest) n f = (n, f) :: (q, g) :: rest := by
          simp [dirSet, hnq, hlt]
        rw [hred]
        by_cases hmn : m = n
        · simp [assocGet, hmn]
        · simp [assocGet, hmn]
      · have hred : dirSet ((q, g) :: rest) n f = (q, g) :: dirSet rest n f := by
          simp [dirSet, hnq, hlt]
        rw [hred]
        by_cases hmq : m = q
        · subst hmq
          have hmn : m ≠ n := fun h => hnq h.symm
          simp [assocGet, hmn]
        · simp [assocGet, hmq, ih]

theorem dirSet_mem (d : List (String × DFile)) (n : String) (f : DFile)
    (x : String × DFile) (hx : x ∈ dirSet d n f) :
    x ∈ d ∨ x = (n, f) := by
  induction d with
  | nil => exact Or.inr (by simpa [dirSet] using hx)
  | cons p rest ih =>
    obtain ⟨q, g⟩ := p
    by_cases hnq : n = q
    · subst hnq
      have hred : dirSet ((n, g) :: rest) n f = (n, f) :: rest := by
        simp [dirSet]
      rw [hred, List.mem_cons] at hx
      rcases hx with h1 | h1
      · exact Or.inr h1
      · exact Or.inl (List.mem_cons_of_mem _ h1)
    · by_cases hlt : nameLt n q
      · have hred : dirSet ((q, g) :: rest) n f = (n, f) :: (q, g) :: rest := by
          simp [dirSet, hnq, hlt]
        rw [hred, List.mem_cons] at hx
        rcases hx with h1 | h1
        · exact Or.inr h1
        · exact Or.inl h1
      · have hred : dirSet ((q, g) :: rest) n f = (q, g) :: dirSet rest n f := by
          simp [dirSet, hnq, hlt]
        rw [hred, List.mem_cons] at hx
        rcases hx with h1 | h1
        · exact Or.inl (by simp [h1])
        · rcases ih h1 with h2 | h2
          · exact Or.inl (List.mem_cons_of_mem _ h2)
          · exact Or.inr h2

theorem dirSet_pairwise (d : List (String × DFile)) (n : String) (f : DFile)
    (h : d.Pairwise (fun p q => nameLt p.1 q.1)) :
    (dirSet d n f).Pairwise (fun p q => nameLt p.1 q.1) := by
  induction d with
  | nil => simp [dirSet]
  | cons p rest ih =>
    obtain ⟨q, g⟩ := p
    rw [List.pairwise_cons] at h
    by_cases hnq : n = q
    · subst hnq
      have hred : dirSet ((n, g) :: rest) n f = (n, f) :: rest := by
        simp [dirSet]
      rw [hred, List.pairwise_cons]
      exact ⟨fun x hx => h.1 x hx, h.2⟩
    · by_cases hlt : nameLt n q
      · have hred : dirSet ((q, g) :: rest) n f = (n, f) :: (q, g) :: rest := by
          simp [dirSet, hnq, hlt]
        rw [hred, List.pairwise_cons]
        refine ⟨fun x hx => ?_, by rw [List.pairwise_cons]; exact h⟩
        rcases List.mem_cons.mp hx with h1 | h1
        · rw [h1]; exact hlt
        · exact nameLt_trans hlt (h.1 x h1)
      · have hred : dirSet ((q, g) :: rest) n f = (q, g) :: dirSet rest n f := by
          simp [dirSet, hnq, hlt]
        rw [hred, List.pairwise_cons]
        refine ⟨fun x hx => ?_, ih h.2⟩
        rcases dirSet_mem rest n f x hx with h1 | h1
        · exact h.1 x h1
        · rw [h1]
          show nameLt q n
          exact nameLt_of_ne hnq hlt

theorem dirWF_keys_nodup {s : St} (h : dirWF s) :
    (s.dir.map Prod.fst).Nodup :=
  List.pairwise_map.mpr (h.imp (fun hlt => nameLt_ne hlt))

/-! ### Sanitization lemmas -/

theorem sanitize_ok {name f : String} (h : sanitize name = Except.ok f) :
    f = basename name ∧ f ≠ INDEX_FILENAME ∧ f.data ≠ [] ∧
      f.data.all allowedChar = true := by
  unfold sanitize at h
  by_cases h1 : (basename name).data.isEmpty || !((basename name).data.all allowedChar)
  · rw [if_pos h1] at h
    exact absurd h (by simp)
  · rw [if_neg h1] at h
    by_cases h2 : basename name = INDEX_FILENAME
    · rw [if_pos h2] at h
      exact absurd h (by simp)
    · rw [if_neg h2] at h
      have hf : basename name = f := Except.ok.inj h
      subst hf
      simp only [Bool.or_eq_true, Bool.not_eq_true', not_or,
        Bool.not_eq_false] at h1
      refine ⟨rfl, h2, ?_, h1.2⟩
      intro hd
      rw [List.isEmpty_iff] at h1
      exact absurd hd h1.1

theorem sanitize_error {name : String} {e : Err}
    (h : sanitize name = Except.error e) : e = Err.invalidName := by
  unfold sanitize at h
  by_cases h1 : (basename name).data.isEmpty || !((basename name).data.all allowedChar)
  · rw [if_pos h1] at h
    exact (Except.error.inj h).symm
  · rw [if_neg h1] at h
    by_cases h2 : basename name = INDEX_FILENAME
    · rw [if_pos h2] at h
      exact (Except.error.inj h).symm
    · rw [if_neg h2] at h
      exact absurd h (by simp)

theorem basename_of_no_sep {f : String} (h : '/' ∉ f.data) :
    basename f = f := by
  apply String.ext
  show ((f.data.reverse.takeWhile (fun c => c ≠ '/')).reverse) = f.data
  have htw : f.data.reverse.takeWhile (fun c => c ≠ '/') = f.data.reverse := by
    apply List.takeWhile_eq_self_iff.mpr
    intro c hc
    simp only [ne_eq, decide_not, Bool.not_eq_true', decide_eq_false_iff_not]
    intro hcc
    subst hcc
    exact h (List.mem_reverse.mp hc)
  rw [htw, List.reverse_reverse]

theorem sanitized_no_sep {name f : String} (h : sanitize name = Except.ok f) :
    '/' ∉ f.data := by
  obtain ⟨-, -, -, hall⟩ := sanitize_ok h
  intro hmem
  have := List.all_eq_true.mp hall _ hmem
  simp [allowedChar, Char.isAlphanum, Char.isAlpha, Char.isDigit,
    Char.isUpper, Char.isLower] at this

/-- Sanitization is idempotent on its own output. -/
theorem sanitize_of_ok {name f : String} (h : sanitize name = Except.ok f) :
    sanitize f = Except.ok f := by
  obtain ⟨hb, hres, hne, hall⟩ := sanitize_ok h
  have hbase : basename f = f := basename_of_no_sep (sanitized_no_sep h)
  unfold sanitize
  rw [hbase]
  rw [if_neg (by simp [hall, List.isEmpty_iff, hne]), if_neg hres]

/-! ### Metadata update and rebuild lemmas -/

theorem updateMetaFor_dir (s : St) (n : String) (now : Nat) :
    (updateMetaFor s n now).dir = s.dir := by
  unfold updateMetaFor
  cases h : assocGet s.dir n <;> simp

theorem updateMetaFor_get_isSome (s : St) (n : String) (now : Nat)
    (hf : (assocGet s.dir n).isSome) (m : String) :
    (assocGet (updateMetaFor s n now).index m).isSome ↔
      (m = n ∨ (assocGet s.index m).isSome) := by
  unfold updateMetaFor
  cases h : assocGet s.dir n with
  | none => rw [h] at hf; simp at hf
  | some f =>
    simp only
    rw [assocGet_assocSet]
    by_cases hm : m = n
    · simp [hm]
    · simp [hm]

theorem updateMetaFor_keys_nodup (s : St) (n : String) (now : Nat)
    (h : (s.index.map Prod.fst).Nodup) :
    ((updateMetaFor s n now).index.map Prod.fst).Nodup := by
  unfold updateMetaFor
  cases hg : assocGet s.dir n with
  | none => exact h
  | some f =>
    simp only
    exact assocSet_keys_nodup _ _ _ h

theorem inv_updateMetaFor (s : St) (n : String) (now : Nat)
    (hn : n ≠ INDEX_FILENAME)
    (hnd : (s.index.map Prod.fst).Nodup)
    (hrest : ∀ m, m ≠ n →
      ((assocGet s.index m).isSome ↔
        ((assocGet s.dir m).isSome ∧ m ≠ INDEX_FILENAME)))
    (hf : (assocGet s.dir n).isSome) :
    indexMatchesDir (updateMetaFor s n now) := by
  constructor
  · exact updateMetaFor_keys_nodup s n now hnd
  · intro m
    rw [updateMetaFor_get_isSome s n now hf m, updateMetaFor_dir]
    by_cases hm : m = n
    · subst hm
      simp [hf, hn]
    · rw [← hrest m hm]
      simp [hm]

theorem assocGet_rebuilt (d : List (String × DFile)) (n : String) :
    assocGet ((d.filter (fun p => p.1 ≠ INDEX_FILENAME)).map rebuiltEntry) n =
      match assocGet d n with
      | none => none
      | some f =>
        if n = INDEX_FILENAME then none else some (rebuiltEntry (n, f)).2 := by
  induction d with
  | nil => simp [assocGet]
  | cons p rest ih =>
    obtain ⟨q, g⟩ := p
    by_cases hq : q = INDEX_FILENAME
    · subst hq
      rw [show List.filter (fun p => decide (p.1 ≠ INDEX_FILENAME))
          ((INDEX_FILENAME, g) :: rest) =
          rest.filter (fun p => decide (p.1 ≠ INDEX_FILENAME)) from by
        simp [List.filter_cons]]
      rw [ih]
      by_cases hn : n = INDEX_FILENAME
      · subst hn
        rw [show assocGet ((INDEX_FILENAME, g) :: rest) INDEX_FILENAME =
            some g from by simp [assocGet]]
        cases assocGet rest INDEX_FILENAME <;> simp
      · rw [show assocGet ((INDEX_FILENAME, g) :: rest) n =
            assocGet rest n from by simp [assocGet, hn]]
    · rw [show List.filter (fun p => decide (p.1 ≠ INDEX_FILENAME))
          ((q, g) :: rest) =
          (q, g) :: rest.filter (fun p => decide (p.1 ≠ INDEX_FILENAME)) from by
        simp [List.filter_cons, hq]]
      by_cases hnq : n = q
      · subst hnq
        rw [show assocGet ((n, g) :: rest) n = some g from by simp [assocGet]]
        simp only [List.map_cons]
        rw [show assocGet ((rebuiltEntry (n, g)) :: _) n =
            some (rebuiltEntry (n, g)).2 from by simp [assocGet, rebuiltEntry]]
        simp [hq]
      · rw [show assocGet ((q, g) :: rest) n = assocGet rest n from by
          simp [assocGet, hnq]]
        simp only [List.map_cons]
        rw [show assocGet ((rebuiltEntry (q, g)) :: (rest.filter
            (fun p => decide (p.1 ≠ INDEX_FILENAME))).map rebuiltEntry) n =
            assocGet ((rest.filter
              (fun p => decide (p.1 ≠ INDEX_FILENAME))).map rebuiltEntry) n from by
          simp [assocGet, rebuiltEntry, hnq]]
        exact ih

theorem rebuildIndex_get (s : St) (n : String) :
    assocGet (rebuildIndex s).index n =
      match assocGet s.dir n with
      | none => none
      | some f =>
        if n = INDEX_FILENAME then none
        else some { filename := n, created_at := f.ctime
                    last_modified := f.mtime, size := fileSize f
                    tags := ([] : List String) } := by
  show assocGet ((s.dir.filter (fun p => p.1 ≠ INDEX_FILENAME)).map rebuiltEntry) n = _
  rw [assocGet_rebuilt]
  cases assocGet s.dir n <;> simp [rebuiltEntry]

theorem rebuildIndex_keys_nodup (s : St) (hnd : (s.dir.map Prod.fst).Nodup) :
    ((rebuildIndex s).index.map Prod.fst).Nodup := by
  show (((s.dir.filter (fun p => p.1 ≠ INDEX_FILENAME)).map rebuiltEntry).map
    Prod.fst).Nodup
  rw [List.map_map]
  have hcomp : (Prod.fst ∘ rebuiltEntry) = (Prod.fst :
      String × DFile → String) := by
    funext p
    rfl
  rw [hcomp]
  exact ((List.filter_sublist s.dir).map Prod.fst).nodup hnd

theorem inv_rebuildIndex (s : St) (hnd : (s.dir.map Prod.fst).Nodup) :
    indexMatchesDir (rebuildIndex s) := by
  refine ⟨rebuildIndex_keys_nodup s hnd, fun n => ?_⟩
  rw [rebuildIndex_get]
  have hdir : (rebuildIndex s).dir = s.dir := by
    unfold rebuildIndex
    simp
  rw [hdir]
  cases hg : assocGet s.dir n with
  | none => simp
  | some f =>
    by_cases hn : n = INDEX_FILENAME
    · simp [hn]
    · simp [hn]

/-! ### Line splitting lemmas -/

theorem readlines_eq_nil_iff (c : Content) : readlines c = [] ↔ c = [] := by
  cases c with
  | nil => simp [readlines]
  | cons x rest =>
    simp only [readlines]
    by_cases hx : x = '\n'
    · simp [hx]
    · rw [if_neg hx]
      cases readlines rest <;> simp

theorem readlines_cons_nl (rest : Content) :
    readlines ('\n' :: rest) = ['\n'] :: readlines rest := by
  rw [readlines]
  simp

theorem readlines_cons_other (x : Char) (rest : Content) (hx : x ≠ '\n') :
    readlines (x :: rest) =
      match readlines rest with
      | [] => [[x]]
      | l :: ls => (x :: l) :: ls := by
  rw [readlines]
  simp [hx]

theorem readlines_append (a b : Content) (h : endsNL a = true) :
    readlines (a ++ b) = readlines a ++ readlines b := by
  induction a with
  | nil => rfl
  | cons x a ih =>
    cases a with
    | nil =>
      have hx : x = '\n' := by simpa [endsNL] using h
      subst hx
      rw [List.cons_append, List.nil_append, readlines_cons_nl,
        readlines_cons_nl]
      rfl
    | cons y a2 =>
      have ha : endsNL (y :: a2) = true := by simpa [endsNL] using h
      by_cases hx : x = '\n'
      · subst hx
        rw [List.cons_append, readlines_cons_nl, readlines_cons_nl, ih ha]
        rfl
      · rw [List.cons_append, readlines_cons_other x _ hx,
          readlines_cons_other x _ hx, ih ha]
        have hne : readlines (y :: a2) ≠ [] := by
          rw [Ne, readlines_eq_nil_iff]
          simp
        cases hr : readlines (y :: a2) with
        | nil => exact absurd hr hne
        | cons l ls => simp

theorem readlines_line (l : Content) (h : '\n' ∉ l) :
    readlines (l ++ ['\n']) = [l ++ ['\n']] := by
  induction l with
  | nil => simpa using readlines_cons_nl []
  | cons c cs ih =>
    have hc : c ≠ '\n' := fun hh => h (by rw [hh]; exact List.mem_cons_self _ _)
    have hcs : '\n' ∉ cs := fun hh => h (List.mem_cons_of_mem _ hh)
    rw [List.cons_append, readlines_cons_other c _ hc, ih hcs]

theorem endsNL_append_nl (x : Content) : endsNL (x ++ ['\n']) = true := by
  induction x with
  | nil => simp [endsNL]
  | cons c cs ih =>
    cases cs with
    | nil => simp [endsNL]
    | cons d ds =>
      simpa [endsNL] using ih

theorem readlines_flatMap (lines : List Content)
    (h : ∀ l ∈ lines, '\n' ∉ rstripNL l) :
    readlines (lines.flatMap (fun l => rstripNL l ++ ['\n'])) =
      lines.map (fun l => rstripNL l ++ ['\n']) := by
  induction lines with
  | nil => simp [readlines]
  | cons l ls ih =>
    rw [List.flatMap_cons, readlines_append _ _ (endsNL_append_nl _),
      readlines_line _ (h l (List.mem_cons_self _ _)),
      ih (fun x hx => h x (List.mem_cons_of_mem _ hx)), List.map_cons]
    simp

theorem dropWhile_self (p : α → Bool) (l : List α) :
    (l.dropWhile p).dropWhile p = l.dropWhile p := by
  induction l with
  | nil => simp
  | cons a l ih =>
    by_cases hp : p a
    · simp [List.dropWhile_cons, hp, ih]
    · simp [List.dropWhile_cons, hp]

theorem rstripNL_append_nl (x : Content) :
    rstripNL (x ++ ['\n']) = rstripNL x := by
  unfold rstripNL
  rw [List.reverse_append]
  simp [List.dropWhile_cons]

theorem rstripNL_idem (x : Content) : rstripNL (rstripNL x) = rstripNL x := by
  unfold rstripNL
  rw [List.reverse_reverse, dropWhile_self]

/-! ### Enumeration lemmas -/

theorem numberFrom_mem_ge {k : Nat} {l : List α} {x : Nat × α}
    (hx : x ∈ numberFrom k l) : k ≤ x.1 := by
  induction l generalizing k with
  | nil => simp [numberFrom] at hx
  | cons a l ih =>
    rw [numberFrom, List.mem_cons] at hx
    rcases hx with h1 | h1
    · rw [h1]
    · exact Nat.le_of_succ_le (ih h1)

theorem numberFrom_pairwise (k : Nat) (l : List α) :
    (numberFrom k l).Pairwise (fun a b => a.1 < b.1) := by
  induction l generalizing k with
  | nil => simp [numberFrom]
  | cons a l ih =>
    rw [numberFrom, List.pairwise_cons]
    exact ⟨fun x hx => Nat.lt_of_succ_le (numberFrom_mem_ge hx), ih (k + 1)⟩

/-! ### C1 -/

/-- C1: the claim states that sanitization rejects the path-traversal
name `"../../etc/passwd"` with `InvalidName`.  It does not: the code
takes `os.path.basename` first, which strips the traversal components
and leaves `"passwd"`, an accepted name. -/
theorem c1_sanitize_counterexample :
    sanitize "../../etc/passwd" = Except.ok "passwd" := by decide

/-- C1 (amended): sanitization strips directory components rather than
rejecting them — `"../../etc/passwd"` is accepted as its basename
`"passwd"` — while `"notes.txt"` is accepted unchanged and the reserved
`"index.json"` is rejected with `InvalidName`; every filesystem path is
constructed by joining the data directory with the output of
sanitization only. -/
theorem c1_sanitize_amended :
    sanitize "../../etc/passwd" = Except.ok "passwd" ∧
    sanitize "notes.txt" = Except.ok "notes.txt" ∧
    sanitize "index.json" = Except.error Err.invalidName ∧
    ∀ (d : List String) (name : String) (p : List String),
      filePathOf d name = Except.ok p →
      ∃ f, sanitize name = Except.ok f ∧ p = pathJoin d f := by
  refine ⟨by decide, by decide, by decide, fun d name p h => ?_⟩
  unfold filePathOf at h
  cases hs : sanitize name with
  | error e => rw [hs] at h; exact absurd h (by simp)
  | ok f =>
    rw [hs] at h
    exact ⟨f, rfl, (Except.ok.inj h).symm⟩

/-- C1 (witness): the amended path-construction property applied at the
concrete name `"notes.txt"` over the data directory `["data"]`. -/
theorem c1_sanitize_amended_witness :
    ∃ f, sanitize "notes.txt" = Except.ok f ∧
      ["data", "notes.txt"] = pathJoin ["data"] f :=
  c1_sanitize_amended.2.2.2 ["data"] "notes.txt" ["data", "notes.txt"]
    (by decide)

/-! ### C10 -/

/-- C10: sanitization accepts the names `"."` and `".."` (the dot is an
allowed character and `basename` leaves them intact), and the path
built from such a "validated" name resolves to the collection directory
itself (for `"."`) or to its parent (for `".."`) — in neither case to a
location strictly inside the collection directory. -/
theorem c10_dot_names_escape :
    sanitize "." = Except.ok "." ∧
    sanitize ".." = Except.ok ".." ∧
    (∀ d : List String,
      resolvePath (pathJoin d ".") = resolvePath d ∧
      ¬ strictlyInside (resolvePath d) (resolvePath (pathJoin d "."))) ∧
    (∀ d : List String,
      resolvePath (pathJoin d "..") = (resolvePath d).dropLast ∧
      ¬ strictlyInside (resolvePath d) (resolvePath (pathJoin d ".."))) := by
  refine ⟨by decide, by decide, fun d => ?_, fun d => ?_⟩
  · have hj : pathJoin d "." = d := by simp [pathJoin]
    rw [hj]
    exact ⟨rfl, fun hin => Nat.lt_irrefl _ hin.1⟩
  · have hj : pathJoin d ".." = d ++ [".."] := by simp [pathJoin]
    have hres : resolvePath (d ++ [".."]) = (resolvePath d).dropLast := by
      unfold resolvePath
      rw [List.foldl_append]
      simp
    rw [hj, hres]
    refine ⟨rfl, fun hin => ?_⟩
    have hlen := hin.1
    have hle : (resolvePath d).dropLast.length ≤ (resolvePath d).length := by
      rw [List.length_dropLast]
      omega
    omega

/-- C10 (witness): over the concrete data directory
`["home", "data"]`, the accepted name `".."` yields a path resolving to
the parent `["home"]`, which is not inside the collection directory. -/
theorem c10_dot_names_escape_witness :
    resolvePath (pathJoin ["home", "data"] "..") = ["home"] ∧
    ¬ strictlyInside (resolvePath ["home", "data"])
      (resolvePath (pathJoin ["home", "data"] "..")) := by
  have h := c10_dot_names_escape.2.2.2 ["home", "data"]
  exact ⟨by rw [h.1]; decide, h.2⟩

/-! ### C9 -/

/-- C9: the claim states that after a failed rewrite the document holds
either the complete old content or the complete new content.  It does
not: `remove_line` reopens the target in write mode and rewrites it in
place, so the truncated (empty) file is an observable crash state that
is neither; shown here on the two-line document `"a\nb\n"` with line 1
removed. -/
theorem c9_rewrite_counterexample :
    (removeLine sA "a.txt" 1 9).1 = Except.ok ['x'] ∧
    assocGet (removeLine sA "a.txt" 1 9).2.dir "a.txt" =
      some { content := [], ctime := 5, mtime := 9 } ∧
    ([] : Content) ∈ removeLineCrashStates ['a', '\n', 'b', '\n'] 0 ∧
    removeLineNewContent ['a', '\n', 'b', '\n'] 0 = ['b', '\n'] ∧
    ([] : Content) ≠ ['a', '\n', 'b', '\n'] ∧
    ([] : Content) ≠ removeLineNewContent ['a', '\n', 'b', '\n'] 0 := by
  decide

/-- C9 (amended): the in-place rewrite performed by `deleteLine` is not
atomic — a failure can leave any initial segment of the new content,
including the truncated empty file — while the index persistence is
atomic: a reader of the index file sees the complete old or the
complete new serialization, never a partial one. -/
theorem c9_rewrite_amended :
    (∀ (content : Content) (k : Nat) (c : Content),
      c ∈ removeLineCrashStates content k →
        c.length ≤ (removeLineNewContent content k).length ∧
        c = (removeLineNewContent content k).take c.length) ∧
    (∀ (old new : List (String × FileMeta)) (p : List (String × FileMeta)),
      p ∈ writeIndexCrashStates old new → p = old ∨ p = new) := by
  constructor
  · intro content k c hc
    unfold removeLineCrashStates overwriteCrashStates at hc
    rw [List.mem_map] at hc
    obtain ⟨j, hj, hcj⟩ := hc
    rw [List.mem_range] at hj
    have hjlen : j ≤ (removeLineNewContent content k).length := by omega
    subst hcj
    constructor
    · rw [List.length_take]
      omega
    · rw [List.length_take, Nat.min_def]
      split
      · simp [List.take_take, Nat.min_def]
      · simp [List.take_take, Nat.min_def]
  · intro old new p hp
    simpa [writeIndexCrashStates] using hp

/-- C9 (witness): the amended crash-state property applied to the
concrete rewrite of `"a\nb\n"` with its first line removed, at the
truncated crash state. -/
theorem c9_rewrite_amended_witness :
    ([] : Content).length ≤
      (removeLineNewContent ['a', '\n', 'b', '\n'] 0).length ∧
    ([] : Content) =
      (removeLineNewContent ['a', '\n', 'b', '\n'] 0).take
        ([] : Content).length :=
  c9_rewrite_amended.1 ['a', '\n', 'b', '\n'] 0 [] (by decide)

/-! ### C6 -/

/-- C6: `create` fails with `CollectionFull` exactly when the count of
non-reserved files on disk is at least `MAX_FILES` (100); the check is
performed before the overwrite and existence checks, so the rejection
holds regardless of the overwrite flag and takes precedence over
`AlreadyExists`, and it leaves the state unchanged. -/
theorem c6_create_collection_full (s : St) (name : String) (ow : Bool)
    (now : Nat) :
    ((createFile s name ow now).1 = Except.error Err.collectionFull ↔
      MAX_FILES ≤ docCount s) ∧
    (MAX_FILES ≤ docCount s →
      createFile s name ow now = (Except.error Err.collectionFull, s)) := by
  by_cases hfull : MAX_FILES ≤ docCount s
  · have hres : createFile s name ow now = (Except.error Err.collectionFull, s) := by
      unfold createFile
      rw [if_pos hfull]
    exact ⟨by rw [hres]; exact ⟨fun _ => hfull, fun _ => rfl⟩, fun _ => hres⟩
  · refine ⟨⟨fun hres => ?_, fun h => absurd h hfull⟩, fun h => absurd h hfull⟩
    exfalso
    unfold createFile at hres
    rw [if_neg hfull] at hres
    cases hs : sanitize name with
    | error e =>
      rw [hs] at hres
      simp only at hres
      have : e = Err.invalidName := sanitize_error hs
      subst this
      exact absurd (Except.error.inj hres) (by simp)
    | ok fname =>
      rw [hs] at hres
      simp only at hres
      by_cases hex : (assocGet s.dir fname).isSome && !ow
      · rw [if_pos hex] at hres
        exact absurd (Except.error.inj hres) (by simp)
      · rw [if_neg hex] at hres
        exact Except.noConfusion hres

/-- C6 (witness): a collection holding 100 documents rejects `create`
with `CollectionFull` even with the overwrite flag set. -/
theorem c6_create_collection_full_witness :
    createFile sFull "x.txt" true 0 = (Except.error Err.collectionFull, sFull) :=
  (c6_create_collection_full sFull "x.txt" true 0).2 (by decide)

/-! ### C5 -/

/-- C5: `deleteLine(D, i)` fails with `InvalidArgument` for every
`i < 1`; for `i ≥ 1` it fails with `NotFound` when the document is
absent; and for `i ≥ 1` on a present document it fails with
`OutOfRange` for every `i` greater than the current line count — the
checks running in that order — and in every failure case the state
(in particular the document's on-disk content) is returned unchanged. -/
theorem c5_remove_line_errors (s : St) (name : String) (k : Int) (now : Nat)
    (fname : String) (f : DFile) :
    (k < 1 → removeLine s name k now = (Except.error Err.invalidArgument, s)) ∧
    (1 ≤ k → sanitize name = Except.ok fname → assocGet s.dir fname = none →
      removeLine s name k now = (Except.error Err.notFound, s)) ∧
    (1 ≤ k → sanitize name = Except.ok fname → assocGet s.dir fname = some f →
      ((readlines f.content).length : Int) < k →
      removeLine s name k now = (Except.error Err.outOfRange, s)) := by
  refine ⟨fun h1 => ?_, fun h1 hs hget => ?_, fun h1 hs hget hlen => ?_⟩
  · unfold removeLine
    rw [if_pos h1]
  · have hnl : ¬ k < 1 := by omega
    simp [removeLine, hnl, hs, hget]
  · have hnl : ¬ k < 1 := by omega
    simp [removeLine, hnl, hs, hget, hlen]

/-- C5 (witness): the three failure modes observed on the concrete
one-line document `a.txt` of the example state: index 0 is rejected as
`InvalidArgument`, a missing document as `NotFound`, and index 2 (above
the single line) as `OutOfRange`, each leaving the state unchanged. -/
theorem c5_remove_line_errors_witness :
    removeLine sA "a.txt" 0 9 = (Except.error Err.invalidArgument, sA) ∧
    removeLine sA "missing.txt" 1 9 = (Except.error Err.notFound, sA) ∧
    removeLine sA "a.txt" 2 9 = (Except.error Err.outOfRange, sA) := by
  refine ⟨(c5_remove_line_errors sA "a.txt" 0 9 "a.txt"
      { content := [], ctime := 0, mtime := 0 }).1 (by decide),
    (c5_remove_line_errors sA "missing.txt" 1 9 "missing.txt"
      { content := [], ctime := 0, mtime := 0 }).2.1 (by decide) (by decide)
      (by decide),
    (c5_remove_line_errors sA "a.txt" 2 9 "a.txt"
      { content := ['x', '\n'], ctime := 5, mtime := 6 }).2.2 (by decide)
      (by decide) (by decide) (by decide)⟩

/-! ### C8 -/

/-- C8: for a valid name, `add_tag` and `remove_tag` fail with
`NotFound` exactly when the in-memory index has no metadata entry for
the document (regardless of what is on disk); adding a present tag and
removing an absent tag leave the state entirely unchanged (so nothing
is re-persisted and no duplicate is ever appended); adding an absent
tag appends it once and persists the index, and removing a present tag
erases it and persists the index, neither touching the directory. -/
theorem c8_tag_operations (s : St) (name tag fname : String)
    (hs : sanitize name = Except.ok fname) :
    ((addTag s name tag).1 = Except.error Err.notFound ↔
      assocGet s.index fname = none) ∧
    ((removeTag s name tag).1 = Except.error Err.notFound ↔
      assocGet s.index fname = none) ∧
    (∀ m, assocGet s.index fname = some m → tag ∈ m.tags →
      addTag s name tag = (Except.ok (), s)) ∧
    (∀ m, assocGet s.index fname = some m → tag ∉ m.tags →
      (addTag s name tag).1 = Except.ok () ∧
      (addTag s name tag).2.index =
        assocSet s.index fname { m with tags := m.tags ++ [tag] } ∧
      (addTag s name tag).2.persisted = (addTag s name tag).2.index ∧
      (addTag s name tag).2.dir = s.dir) ∧
    (∀ m, assocGet s.index fname = some m → tag ∉ m.tags →
      removeTag s name tag = (Except.ok (), s)) ∧
    (∀ m, assocGet s.index fname = some m → tag ∈ m.tags →
      (removeTag s name tag).1 = Except.ok () ∧
      (removeTag s name tag).2.index =
        assocSet s.index fname { m with tags := m.tags.erase tag } ∧
      (removeTag s name tag).2.persisted = (removeTag s name tag).2.index ∧
      (removeTag s name tag).2.dir = s.dir) := by
  refine ⟨?_, ?_, fun m hm ht => ?_, fun m hm ht => ?_, fun m hm ht => ?_,
    fun m hm ht => ?_⟩
  · cases hm : assocGet s.index fname with
    | none => simp [addTag, hs, hm]
    | some m =>
      by_cases ht : tag ∈ m.tags
      · simp [addTag, hs, hm, ht]
      · simp [addTag, hs, hm, ht]
  · cases hm : assocGet s.index fname with
    | none => simp [removeTag, hs, hm]
    | some m =>
      by_cases ht : tag ∈ m.tags
      · simp [removeTag, hs, hm, ht]
      · simp [removeTag, hs, hm, ht]
  · simp [addTag, hs, hm, ht]
  · simp [addTag, hs, hm, ht]
  · simp [removeTag, hs, hm, ht]
  · simp [removeTag, hs, hm, ht]

/-- C8 (witness): on the example state, adding the already-present tag
`"x"` is a complete no-op, adding `"y"` succeeds, removing the absent
tag `"zz"` is a complete no-op, removing `"x"` succeeds, and a tag
operation on a document without an index entry fails `NotFound`. -/
theorem c8_tag_operations_witness :
    addTag sA "a.txt" "x" = (Except.ok (), sA) ∧
    (addTag sA "a.txt" "y").1 = Except.ok () ∧
    removeTag sA "a.txt" "zz" = (Except.ok (), sA) ∧
    (removeTag sA "a.txt" "x").1 = Except.ok () ∧
    (addTag sA "nope.txt" "t").1 = Except.error Err.notFound := by
  refine ⟨(c8_tag_operations sA "a.txt" "x" "a.txt" (by decide)).2.2.1 mA
      (by decide) (by decide),
    ((c8_tag_operations sA "a.txt" "y" "a.txt" (by decide)).2.2.2.1 mA
      (by decide) (by decide)).1,
    (c8_tag_operations sA "a.txt" "zz" "a.txt" (by decide)).2.2.2.2.1 mA
      (by decide) (by decide),
    ((c8_tag_operations sA "a.txt" "x" "a.txt" (by decide)).2.2.2.2.2 mA
      (by decide) (by decide)).1,
    (c8_tag_operations sA "nope.txt" "t" "nope.txt" (by decide)).1.mpr
      (by decide)⟩

/-! ### C3 -/

/-- C3: the claim states that `list()` preserves `created_at`,
`last_modified` and `tags` of every already-tracked file, refreshing
only the size.  It does not: `_rebuild_index` starts from an empty
dictionary and rebuilds every entry from `stat`, so on the example
state the tracked file `a.txt` (tags `["x"]`, `created_at` 1,
`last_modified` 2) comes back with filesystem stamps 5/6 and an empty
tag list. -/
theorem c3_list_counterexample :
    assocGet sA.index "a.txt" = some mA ∧
    mA.tags = ["x"] ∧ mA.created_at = 1 ∧ mA.last_modified = 2 ∧
    assocGet (listFiles sA).2.index "a.txt" =
      some { filename := "a.txt", created_at := 5, last_modified := 6
             size := 2, tags := [] } := by
  decide

/-- C3 (amended): the rebuild performed by `list()` discards all prior
metadata: every non-reserved file present on disk — tracked or not —
receives filesystem-derived `created_at` and `last_modified`, the
on-disk size, and an empty tag set, and every entry whose file is
absent is dropped. -/
theorem c3_list_rebuild_amended (s : St) (n : String) :
    assocGet (listFiles s).2.index n =
      match assocGet s.dir n with
      | none => none
      | some f =>
        if n = INDEX_FILENAME then none
        else some { filename := n, created_at := f.ctime
                    last_modified := f.mtime, size := fileSize f
                    tags := ([] : List String) } := by
  show assocGet (rebuildIndex s).index n = _
  exact rebuildIndex_get s n

/-! ### C4 -/

/-- C4: appending a list of lines to an existing newline-terminated
document and then reading it back yields exactly the previous lines
followed by the given lines in order, each appended entry normalized by
stripping its trailing newlines and adding exactly one, and `read`
returning every line with its trailing terminator stripped. -/
theorem c4_append_then_read (s : St) (name fname : String) (f : DFile)
    (lines : List Content) (now : Nat) (prev : List Content)
    (hs : sanitize name = Except.ok fname)
    (hf : assocGet s.dir fname = some f)
    (hend : endsNL f.content = true)
    (hl : ∀ l ∈ lines, '\n' ∉ rstripNL l)
    (hprev : (showFile s name).1 = Except.ok prev) :
    (addLines s name lines now).1 = Except.ok () ∧
    (showFile (addLines s name lines now).2 name).1 =
      Except.ok (prev ++ lines.map rstripNL) := by
  have hprev2 : prev = (readlines f.content).map rstripNL := by
    simp only [showFile, hs, hf] at hprev
    exact (Except.ok.inj hprev).symm
  have h1 : addLines s name lines now =
      (Except.ok (), updateMetaFor
        { s with dir := dirSet s.dir fname (DFile.mk
            (f.content ++ lines.flatMap (fun l => rstripNL l ++ ['\n']))
            f.ctime now) } fname now) := by
    simp [addLines, hs, hf]
  have hdir : (addLines s name lines now).2.dir =
      dirSet s.dir fname (DFile.mk
        (f.content ++ lines.flatMap (fun l => rstripNL l ++ ['\n']))
        f.ctime now) := by
    rw [h1, updateMetaFor_dir]
  refine ⟨by rw [h1], ?_⟩
  have hget : assocGet (addLines s name lines now).2.dir fname =
      some (DFile.mk
        (f.content ++ lines.flatMap (fun l => rstripNL l ++ ['\n']))
        f.ctime now) := by
    rw [hdir, assocGet_dirSet]
    simp
  simp only [showFile, hs, hget]
  congr 1
  rw [readlines_append _ _ hend, readlines_flatMap lines hl,
    List.map_append, List.map_map, hprev2]
  congr 1
  apply List.map_congr_left
  intro l hml
  show rstripNL (rstripNL l ++ ['\n']) = rstripNL l
  rw [rstripNL_append_nl, rstripNL_idem]

/-- C4 (witness): appending `["y"]` to the one-line document `"x\n"` of
the example state and reading it back yields `["x", "y"]`. -/
theorem c4_append_then_read_witness :
    (addLines sA "a.txt" [['y']] 9).1 = Except.ok () ∧
    (showFile (addLines sA "a.txt" [['y']] 9).2 "a.txt").1 =
      Except.ok [['x'], ['y']] :=
  c4_append_then_read sA "a.txt" "a.txt"
    { content := ['x', '\n'], ctime := 5, mtime := 6 } [['y']] 9 [['x']]
    (by decide) (by decide) (by decide) (by decide) (by decide)

/-! ### C7 -/

theorem findText_true_eq (s : St) (text : Content) :
    findText s text true = s.dir.flatMap (findInFile (lowerL text)) := rfl

theorem findInFile_mem {needle : Content} {p : String × DFile}
    {x : String × Nat × Content} (hx : x ∈ findInFile needle p) :
    x.1 = p.1 ∧ p.1 ≠ INDEX_FILENAME := by
  unfold findInFile at hx
  by_cases hidx : p.1 = INDEX_FILENAME
  · rw [if_pos hidx] at hx
    simp at hx
  · rw [if_neg hidx] at hx
    rw [List.mem_map] at hx
    obtain ⟨q, -, heq⟩ := hx
    exact ⟨(congrArg Prod.fst heq).symm, hidx⟩

/-- C7: case-insensitive `find` lowercases both needle and haystack
line and matches by literal substring — a triple is a result exactly
when its file holds a line whose lowercase form contains the lowercase
needle — results are ordered by ascending filename then ascending line
number, each matching line yields exactly one result (the
(filename, lineNumber) pairs are distinct), and the reserved index file
never contributes a result. -/
theorem c7_find_text (s : St) (text : Content) (hwf : dirWF s) :
    (∀ (n : String) (i : Nat) (l : Content),
      (n, i, l) ∈ findText s text true ↔
        ∃ f, (n, f) ∈ s.dir ∧ n ≠ INDEX_FILENAME ∧
          ∃ line, (i, line) ∈ numberFrom 1 (readlines f.content) ∧
            hasSub (lowerL text) (lowerL line) = true ∧ l = rstripNL line) ∧
    (findText s text true).Pairwise resLt ∧
    ((findText s text true).map (fun r => (r.1, r.2.1))).Nodup ∧
    (∀ r ∈ findText s text true, r.1 ≠ INDEX_FILENAME) := by
  have hpw : (findText s text true).Pairwise resLt := by
    rw [findText_true_eq, List.pairwise_flatMap]
    constructor
    · intro p hp
      unfold findInFile
      by_cases hidx : p.1 = INDEX_FILENAME
      · rw [if_pos hidx]
        exact List.Pairwise.nil
      · rw [if_neg hidx, List.pairwise_map]
        have hpw2 := (numberFrom_pairwise 1 (readlines p.2.content)).filter
          (fun q => hasSub (lowerL text) (lowerL q.2))
        exact hpw2.imp (fun hab => Or.inr ⟨rfl, hab⟩)
    · refine hwf.imp ?_
      intro a b hab x hx y hy
      have hxa := findInFile_mem hx
      have hyb := findInFile_mem hy
      exact Or.inl (by rw [hxa.1, hyb.1]; exact hab)
  refine ⟨fun n i l => ?_, hpw, ?_, fun r hr => ?_⟩
  · rw [findText_true_eq, List.mem_flatMap]
    constructor
    · rintro ⟨p, hp, hmem⟩
      unfold findInFile at hmem
      by_cases hidx : p.1 = INDEX_FILENAME
      · rw [if_pos hidx] at hmem
        simp at hmem
      · rw [if_neg hidx] at hmem
        rw [List.mem_map] at hmem
        obtain ⟨q, hq, heq⟩ := hmem
        rw [List.mem_filter] at hq
        have hn : p.1 = n := congrArg Prod.fst heq
        have hi : q.1 = i := congrArg (fun z => z.2.1) heq
        have hline : rstripNL q.2 = l := congrArg (fun z => z.2.2) heq
        refine ⟨p.2, ?_, by rw [← hn]; exact hidx, q.2, ?_, ?_, hline.symm⟩
        · rw [← hn]
          exact hp
        · rw [← hi]
          exact hq.1
        · simpa using hq.2
    · rintro ⟨f, hpf, hnidx, line, hline, hsub, hl⟩
      refine ⟨(n, f), hpf, ?_⟩
      unfold findInFile
      rw [if_neg hnidx, List.mem_map]
      exact ⟨(i, line), List.mem_filter.mpr ⟨hline, by simpa using hsub⟩,
        by rw [hl]⟩
  · refine List.pairwise_map.mpr (hpw.imp ?_)
    intro a b hab heq
    have h1 : a.1 = b.1 := congrArg (Prod.fst : String × Nat → String) heq
    have h2 : a.2.1 = b.2.1 := congrArg (Prod.snd : String × Nat → Nat) heq
    rcases hab with hlt | ⟨-, hlt⟩
    · exact nameLt_ne hlt h1
    · exact Nat.lt_irrefl _ (h2 ▸ hlt)
  · rw [findText_true_eq, List.mem_flatMap] at hr
    obtain ⟨p, -, hmem⟩ := hr
    have h := findInFile_mem hmem
    rw [h.1]
    exact h.2

/-- C7 (witness): searching `"ERROR"` case-insensitively over a state
holding the line `"error occurred\n"` matches it (at `b.txt`, line 1),
and the result sequence is sorted. -/
theorem c7_find_text_witness :
    ("b.txt", 1, "error occurred".data) ∈ findText sB "ERROR".data true ∧
    (findText sB "ERROR".data true).Pairwise resLt :=
  ⟨((c7_find_text sB "ERROR".data (by decide)).1 "b.txt" 1
      "error occurred".data).mpr
    ⟨{ content := "error occurred\n".data, ctime := 0, mtime := 0 },
      by decide, by decide, "error occurred\n".data, by decide, by decide,
      by decide⟩,
    (c7_find_text sB "ERROR".data (by decide)).2.1⟩

/-! ### C2 helper lemmas -/

theorem inv_dirSet_update (s : St) (fname : String) (nf : DFile) (now : Nat)
    (hn : fname ≠ INDEX_FILENAME) (hinv : indexMatchesDir s) :
    indexMatchesDir
      (updateMetaFor { s with dir := dirSet s.dir fname nf } fname now) := by
  apply inv_updateMetaFor
  · exact hn
  · exact hinv.1
  · intro m hm
    show (assocGet s.index m).isSome ↔ _
    rw [show assocGet (dirSet s.dir fname nf) m = assocGet s.dir m from by
      rw [assocGet_dirSet, if_neg hm]]
    exact hinv.2 m
  · show (assocGet (dirSet s.dir fname nf) fname).isSome
    rw [assocGet_dirSet, if_pos rfl]
    rfl

theorem inv_tagSet (s : St) (fname : String) (m : FileMeta)
    (hm : (assocGet s.index fname).isSome) (hinv : indexMatchesDir s) :
    indexMatchesDir { s with index := assocSet s.index fname m
                             persisted := assocSet s.index fname m } := by
  refine ⟨assocSet_keys_nodup _ _ _ hinv.1, fun n => ?_⟩
  show (assocGet (assocSet s.index fname m) n).isSome ↔
    (assocGet s.dir n).isSome ∧ n ≠ INDEX_FILENAME
  rw [assocGet_assocSet]
  by_cases hn : n = fname
  · subst hn
    rw [if_pos rfl]
    simpa using (hinv.2 n).mp hm
  · rw [if_neg hn]
    exact hinv.2 n

theorem inv_delFile (s : St) (n : String)
    (hinv : indexMatchesDir s) :
    indexMatchesDir { s with dir := assocErase s.dir n
                             index := assocErase s.index n
                             persisted := assocErase s.index n } := by
  refine ⟨assocErase_keys_nodup _ _ hinv.1, fun m => ?_⟩
  show (assocGet (assocErase s.index n) m).isSome ↔
    (assocGet (assocErase s.dir n) m).isSome ∧ m ≠ INDEX_FILENAME
  rw [assocGet_assocErase, assocGet_assocErase]
  by_cases hm : m = n
  · simp [hm]
  · rw [if_neg hm, if_neg hm]
    exact hinv.2 m

/-- The example state satisfies the index-vs-disk invariant. -/
theorem inv_sA : indexMatchesDir sA := by
  refine ⟨by decide, fun n => ?_⟩
  by_cases hn : n = "a.txt"
  · subst hn
    decide
  · simp [sA, assocGet, hn]

/-! ### C2 -/

/-- C2: the claim states that after any successful public operation —
including ones whose name argument contains directory components — the
index matches the files on disk.  It does not: `remove_file` unlinks
the file named by the sanitized basename but deletes the RAW argument
from the index, so `removeFile "dir/a.txt"` succeeds, removes `a.txt`
from disk, and leaves its index entry behind. -/
theorem c2_invariant_counterexample :
    indexMatchesDir sA ∧
    (removeFile sA "dir/a.txt").1 = Except.ok () ∧
    ¬ indexMatchesDir (removeFile sA "dir/a.txt").2 := by
  refine ⟨inv_sA, by decide, fun hinv => ?_⟩
  have h := (hinv.2 "a.txt").mp (by decide)
  exact absurd h.1 (by decide)

/-- C2 (amended): starting from a well-formed directory listing and a
state satisfying the index-vs-disk invariant, every successful public
operation preserves the invariant, provided that `deleteFile` is called
with a plain basename (a name free of directory components) — the
restriction forced by the counterexample. -/
theorem c2_invariant_amended (s : St) (o : Op) (now : Nat)
    (hwf : dirWF s) (hinv : indexMatchesDir s)
    (hdel : ∀ n, o = Op.delFile n → basename n = n)
    (hok : (runOp s o now).1 = Except.ok ()) :
    indexMatchesDir (runOp s o now).2 := by
  cases o with
  | create n ow =>
    simp only [runOp] at hok ⊢
    by_cases hfull : MAX_FILES ≤ docCount s
    · simp [createFile, hfull] at hok
    · cases hs : sanitize n with
      | error e => simp [createFile, hfull, hs] at hok
      | ok fname =>
        by_cases hex : (assocGet s.dir fname).isSome && !ow
        · simp [createFile, hfull, hs, hex] at hok
        · have hshape : createFile s n ow now =
              (Except.ok (), updateMetaFor
                { s with dir := (dirSet s.dir fname
                    (writtenEmpty (assocGet s.dir fname) now)) } fname now) := by
            simp [createFile, hfull, hs, hex]
          rw [hshape]
          exact inv_dirSet_update s fname _ now (sanitize_ok hs).2.1 hinv
  | append n ls =>
    simp only [runOp] at hok ⊢
    cases hs : sanitize n with
    | error e => simp [addLines, hs] at hok
    | ok fname =>
      cases hget : assocGet s.dir fname with
      | none => simp [addLines, hs, hget] at hok
      | some f =>
        have hshape : addLines s n ls now =
            (Except.ok (), updateMetaFor
              { s with dir := dirSet s.dir fname (DFile.mk
                  (f.content ++ ls.flatMap (fun l => rstripNL l ++ ['\n']))
                  f.ctime now) } fname now) := by
          simp [addLines, hs, hget]
        rw [hshape]
        exact inv_dirSet_update s fname _ now (sanitize_ok hs).2.1 hinv
  | delLine n k =>
    simp only [runOp] at hok ⊢
    by_cases h1 : k < 1
    · simp [removeLine, h1, Except.map] at hok
    · cases hs : sanitize n with
      | error e => simp [removeLine, h1, hs, Except.map] at hok
      | ok fname =>
        cases hget : assocGet s.dir fname with
        | none => simp [removeLine, h1, hs, hget, Except.map] at hok
        | some f =>
          by_cases hrange : ((readlines f.content).length : Int) < k
          · simp [removeLine, h1, hs, hget, hrange, Except.map] at hok
          · have hshape : removeLine s n k now =
                (Except.ok (rstripNL
                    ((readlines f.content).getD (k.toNat - 1) [])),
                 updateMetaFor
                   { s with dir := dirSet s.dir fname (DFile.mk
                       (removeLineNewContent f.content (k.toNat - 1))
                       f.ctime now) } fname now) := by
              simp [removeLine, h1, hs, hget, hrange]
            rw [hshape]
            exact inv_dirSet_update s fname _ now (sanitize_ok hs).2.1 hinv
  | delFile n =>
    simp only [runOp] at hok ⊢
    cases hs : sanitize n with
    | error e => simp [removeFile, hs] at hok
    | ok fname =>
      have hfn : fname = n := by rw [(sanitize_ok hs).1, hdel n rfl]
      subst hfn
      cases hget : assocGet s.dir fname with
      | none => simp [removeFile, hs, hget] at hok
      | some f =>
        have hidx : (assocGet s.index fname).isSome :=
          (hinv.2 fname).mpr ⟨by rw [hget]; rfl, (sanitize_ok hs).2.1⟩
        have hshape : removeFile s fname = (Except.ok (),
            { s with dir := assocErase s.dir fname
                     index := assocErase s.index fname
                     persisted := assocErase s.index fname }) := by
          simp [removeFile, hs, hget, hidx]
        rw [hshape]
        exact inv_delFile s fname hinv
  | tagAdd n t =>
    simp only [runOp] at hok ⊢
    cases hs : sanitize n with
    | error e => simp [addTag, hs] at hok
    | ok fname =>
      cases hm : assocGet s.index fname with
      | none => simp [addTag, hs, hm] at hok
      | some m =>
        by_cases ht : t ∈ m.tags
        · have hshape : addTag s n t = (Except.ok (), s) := by
            simp [addTag, hs, hm, ht]
          rw [hshape]
          exact hinv
        · have hshape : addTag s n t = (Except.ok (),
              { s with
                index := assocSet s.index fname { m with tags := m.tags ++ [t] }
                persisted :=
                  assocSet s.index fname { m with tags := m.tags ++ [t] } }) := by
            simp [addTag, hs, hm, ht]
          rw [hshape]
          exact inv_tagSet s fname _ (by rw [hm]; rfl) hinv
  | tagRemove n t =>
    simp only [runOp] at hok ⊢
    cases hs : sanitize n with
    | error e => simp [removeTag, hs] at hok
    | ok fname =>
      cases hm : assocGet s.index fname with
      | none => simp [removeTag, hs, hm] at hok
      | some m =>
        by_cases ht : t ∈ m.tags
        · have hshape : removeTag s n t = (Except.ok (),
              { s with
                index := assocSet s.index fname { m with tags := m.tags.erase t }
                persisted :=
                  assocSet s.index fname { m with tags := m.tags.erase t } }) := by
            simp [removeTag, hs, hm, ht]
          rw [hshape]
          exact inv_tagSet s fname _ (by rw [hm]; rfl) hinv
        · have hshape : removeTag s n t = (Except.ok (), s) := by
            simp [removeTag, hs, hm, ht]
          rw [hshape]
          exact hinv
  | listOp =>
    simp only [runOp]
    show indexMatchesDir (rebuildIndex s)
    exact inv_rebuildIndex s (dirWF_keys_nodup hwf)

/-- C2 (witness): the amended preservation applied to the concrete
operation `add_tag "a.txt" "y"` on the well-formed example state. -/
theorem c2_invariant_amended_witness :
    indexMatchesDir (runOp sA (Op.tagAdd "a.txt" "y") 0).2 :=
  c2_invariant_amended sA (Op.tagAdd "a.txt" "y") 0 (by decide) inv_sA
    (fun n h => Op.noConfusion h) (by decide)

end CollectionManager
